import Mathlib

/-!
Verification of the QR-code detection engine of the attendance-system client
(`client/src/page/cameraRoom/CameraRoom.tsx`, the `jsQR` function and its
helpers).  The engine is embedded shallowly:

* pixel buffers (`Uint8ClampedArray`) become `List ℕ`; an in-bounds read
  `a[i]` becomes `List.getD a i 0` (all reads proved relevant here are
  in-bounds, so the default is never observed by the claims);
* JavaScript numbers used as integers become `ℕ` (or `ℤ` where the source
  arithmetic can go negative or fractional);
* the floating-point luma expression is modelled bit-exactly: every IEEE-754
  binary64 value is a rational, and each literal, product and sum passes
  through an explicit round-to-nearest-even operator `fl` (all intermediate
  values here are normal and far from overflow, so rounding at 53 significand
  bits is the whole story);
* the fractional loop counters of the centre-region walk (produced by
  `extractSize / 2` when `extractSize` is odd) are modelled exactly by
  doubling: a counter value `v` is represented by the integer `2*v`; the
  array read at `y * width + x` really happens whenever that index is a
  nonnegative in-range integer — which fractional `x` and `y` still permit —
  and yields `undefined` (hence an appended `'0'`) otherwise;
* `Date.now()` becomes an explicit parameter `now : ℕ`;
* the result `{data: string} | null` becomes `Option String`.
-/

namespace CameraRoom

/-- Floor of the base-2 logarithm of a natural number, carrying an explicit
structural fuel so that the definition reduces inside the kernel;
`nlog2go fuel n` is the floor logarithm whenever `n ≤ fuel`. -/
def nlog2go : ℕ → ℕ → ℕ
  | 0, _ => 0
  | fuel + 1, n => if 2 ≤ n then nlog2go fuel (n / 2) + 1 else 0

/-- Floor base-2 logarithm of a natural number (0 for 0). -/
def nlog2 (n : ℕ) : ℕ := nlog2go n n

/-- Ceiling of the base-2 logarithm of a natural number, fuelled like
`nlog2go`. -/
def nclog2go : ℕ → ℕ → ℕ
  | 0, _ => 0
  | fuel + 1, n => if 2 ≤ n then nclog2go fuel ((n + 1) / 2) + 1 else 0

/-- Ceiling base-2 logarithm of a natural number (0 for 0 and 1). -/
def nclog2 (n : ℕ) : ℕ := nclog2go n n

/-- Floor base-2 logarithm of a positive rational: for `q ≥ 1` the floor
logarithm of `⌊q⌋`, for `0 < q < 1` the negated ceiling logarithm of
`⌈q⁻¹⌉`.  The bracketing `2 ^ ilog2 q ≤ q < 2 ^ (ilog2 q + 1)` is proved in
`ilog2_le` and `lt_ilog2_succ` below. -/
def ilog2 (q : ℚ) : ℤ :=
  if 1 ≤ q then (nlog2 ⌊q⌋₊ : ℤ) else -(nclog2 ⌈q⁻¹⌉₊ : ℤ)

/-- Round a rational to the nearest integer, ties to even — the rounding of
IEEE-754 round-to-nearest arithmetic. -/
def rne (x : ℚ) : ℤ :=
  if x - ⌊x⌋ < 1 / 2 then ⌊x⌋
  else if 1 / 2 < x - ⌊x⌋ then ⌊x⌋ + 1
  else if ⌊x⌋ % 2 = 0 then ⌊x⌋ else ⌊x⌋ + 1

/-- Round a positive rational to the nearest IEEE-754 binary64 value
(53-bit significand): scale by the unit in the last place, round the
significand to an integer, scale back.  Every value the engine rounds is
normal and far from overflow, so subnormals and infinities do not arise. -/
def flPos (q : ℚ) : ℚ :=
  (rne (q / 2 ^ (ilog2 q - 52)) : ℚ) * 2 ^ (ilog2 q - 52)

/-- Round a rational to the nearest IEEE-754 binary64 value. -/
def fl (q : ℚ) : ℚ :=
  if 0 < q then flPos q else if q < 0 then -flPos (-q) else 0

/-- The binary64 value denoted by the literal `0.299` in the source. -/
def c0299 : ℚ := fl (299 / 1000)

/-- The binary64 value denoted by the literal `0.587` in the source. -/
def c0587 : ℚ := fl (587 / 1000)

/-- The binary64 value denoted by the literal `0.114` in the source. -/
def c0114 : ℚ := fl (114 / 1000)

/-- The IEEE-double evaluation of `0.299 * R + 0.587 * G + 0.114 * B`
(CameraRoom.tsx line 9): left-associated, with every product and sum
rounded to the nearest double; 8-bit channel values convert to doubles
exactly. -/
def jsLuma (r g b : ℕ) : ℚ :=
  fl (fl (fl (c0299 * r) + fl (c0587 * g)) + fl (c0114 * b))

/-- Luminance of one pixel, mirroring
`Math.round(0.299 * R + 0.587 * G + 0.114 * B)` (line 9): `Math.round` per
ECMA-262 returns the integral value closest to the double argument, ties
toward `+∞`, i.e. `⌊x + 1/2⌋` of the exact value `x` of the double. -/
def lum (r g b : ℕ) : ℕ := (⌊jsLuma r g b + 1 / 2⌋).toNat

/-- RGBA-to-grayscale conversion (CameraRoom.tsx lines 7-11).  The source
allocates `new Uint8ClampedArray(width * height)` (all zeros) and writes
`grayscale[i / 4]` for `i = 0, 4, ...` while `i < data.length`:
* a cell whose three colour channels lie inside `data` receives the rounded
  luma, clamped to 255 by the `Uint8ClampedArray` store (a no-op for 8-bit
  input channels);
* a cell whose pixel is completely or partially missing from `data` holds 0
  (either never written, or written `NaN` — from an `undefined` channel
  read — which a clamped store records as 0);
* writes at `i / 4 ≥ width * height` (when `data` is overlong) are dropped
  by the typed array. -/
def toGrayscale (data : List ℕ) (width height : ℕ) : List ℕ :=
  (List.range (width * height)).map fun p =>
    if 4 * p + 2 < data.length then
      min (lum (data.getD (4 * p) 0) (data.getD (4 * p + 1) 0) (data.getD (4 * p + 2) 0)) 255
    else 0

/-- Membership in the 7×7 window's border ring, mirroring
`dx === 0 || dx === 6 || dy === 0 || dy === 6` (line 46). -/
def isEdge (dx dy : ℕ) : Bool := dx == 0 || dx == 6 || dy == 0 || dy == 6

/-- Membership in the 7×7 window's inner 3×3 core, mirroring
`(dx >= 2 && dx <= 4) && (dy >= 2 && dy <= 4)` (line 47). -/
def isInner (dx dy : ℕ) : Bool :=
  (decide (2 ≤ dx) && decide (dx ≤ 4)) && (decide (2 ≤ dy) && decide (dy ≤ 4))

/-- The `darkCount` accumulated by the nested `dy`/`dx` loops of
`isFinderPattern` (lines 40-55): cells of the border ring or the inner core
whose sample is strictly below the threshold.  The loop increments a counter
once per qualifying cell, i.e. it computes this double sum. -/
def darkCount (gray : List ℕ) (startX startY w thresh : ℕ) : ℕ :=
  ∑ dy ∈ Finset.range 7, ∑ dx ∈ Finset.range 7,
    if (isEdge dx dy || isInner dx dy)
        && decide (gray.getD ((startY + dy) * w + (startX + dx)) 0 < thresh) then 1 else 0

/-- The `lightCount` of `isFinderPattern` (lines 40-55): cells in neither
region (the 16-cell middle ring) whose sample is at or above the
threshold. -/
def lightCount (gray : List ℕ) (startX startY w thresh : ℕ) : ℕ :=
  ∑ dy ∈ Finset.range 7, ∑ dx ∈ Finset.range 7,
    if (!isEdge dx dy && !isInner dx dy)
        && decide (thresh ≤ gray.getD ((startY + dy) * w + (startX + dx)) 0) then 1 else 0

/-- The counting part of `isFinderPattern`, i.e. its body after the bounds
check: `darkCount >= 20 && lightCount >= 8` (line 57). -/
def windowMatch (gray : List ℕ) (startX startY w thresh : ℕ) : Bool :=
  decide (20 ≤ darkCount gray startX startY w thresh)
    && decide (8 ≤ lightCount gray startX startY w thresh)

/-- `isFinderPattern` (lines 32-58): the early rejection
`if (startX + size >= w || startY + size >= h) return false` with
`size = 7`, followed by the window classification. -/
def isFinderPattern (gray : List ℕ) (startX startY w h thresh : ℕ) : Bool :=
  if w ≤ startX + 7 ∨ h ≤ startY + 7 then false
  else windowMatch gray startX startY w thresh

/-- `findPatterns` (lines 18-30): scan starting coordinates
`y = 0, 3, 6, ...` while `y < height - minQRSize` (and likewise `x`), with
`minQRSize = 21`, pushing `{x, y}` for each window accepted by
`isFinderPattern`.  A loop bound `m` admits exactly the multiples of 3 below
`m`, i.e. `3*k` for `k < (m + 2) / 3`; truncated `ℕ` subtraction agrees with
the source because a negative JavaScript bound also yields zero
iterations. -/
def findPatterns (gray : List ℕ) (width height thresh : ℕ) : List (ℕ × ℕ) :=
  ((List.range ((height - 21 + 2) / 3)).map (· * 3)).flatMap fun y =>
    (((List.range ((width - 21 + 2) / 3)).map (· * 3)).filter fun x =>
      isFinderPattern gray x y width height thresh).map fun x => (x, y)

/-- `extractSize` (line 69): `Math.min(100, Math.floor(Math.min(width, height) / 10))`. -/
def extractSize (width height : ℕ) : ℕ := min 100 (min width height / 10)

/-- One appended character of the centre-region walk (lines 71-78), at the
doubled coordinates `X2 = 2*x`, `Y2 = 2*y` of the loop counters: `'1'` when
`grayscale[y * width + x] < threshold` and `'0'` otherwise.  The source
index is `idx = y * width + x`, i.e. `(Y2 * width + X2) / 2` exactly.  When
the loop counters are fractional (odd `extractSize`, odd `X2`/`Y2`) the
index may still be integral — with odd `width` and both halves fractional
the sum `Y2 * width + X2` is even — and then the typed array performs a
real read; a fractional, negative or out-of-range `idx` reads `undefined`,
making the comparison `undefined < threshold` false and appending `'0'`. -/
def walkCharVal (gray : List ℕ) (width thresh : ℕ) (X2 Y2 : ℤ) : Char :=
  if 0 ≤ Y2 * width + X2 ∧ (Y2 * width + X2) % 2 = 0
      ∧ (Y2 * width + X2) / 2 < (gray.length : ℤ) then
    if gray.getD ((Y2 * width + X2) / 2).toNat 0 < thresh then '1' else '0'
  else '0'

/-- The guarded append of the walk (line 73): the source appends only when
`x >= 0 && x < width && y >= 0 && y < height` (equivalently
`0 ≤ X2 < 2*width` and `0 ≤ Y2 < 2*height`); outside these bounds nothing
is emitted. -/
def walkChar (gray : List ℕ) (width height thresh : ℕ) (X2 Y2 : ℤ) : Option Char :=
  if 0 ≤ X2 ∧ X2 < 2 * width ∧ 0 ≤ Y2 ∧ Y2 < 2 * height then
    some (walkCharVal gray width thresh X2 Y2)
  else none

/-- The bit string built by the centre-region walk (lines 64-78).  The
loops run `y` from `centerY - extractSize/2` (strictly) up to
`centerY + extractSize/2` in steps of 2, `x` likewise inside; each axis
therefore takes `⌈extractSize/2⌉ = (extractSize + 1) / 2` values.  In
doubled coordinates step `k` of the `y` loop sits at
`Y2 = 2*centerY - extractSize + 4*k`, with `centerY = ⌊height/2⌋`. -/
def walkBits (gray : List ℕ) (width height thresh : ℕ) : List Char :=
  (List.range ((extractSize width height + 1) / 2)).flatMap fun k : ℕ =>
    (List.range ((extractSize width height + 1) / 2)).filterMap fun j : ℕ =>
      walkChar gray width height thresh
        (2 * ((width : ℤ) / 2) - extractSize width height + 4 * (j : ℤ))
        (2 * ((height : ℤ) / 2) - extractSize width height + 4 * (k : ℤ))

/-- The chunk list `dataString.match(/.{1,8}/g) || []` (line 81): the
greedy regex cuts the string into consecutive pieces of 8 characters, the
last piece keeping whatever remains (1 to 8 characters); a null match on
the empty string becomes the empty list.  Piece `i` is
`s[8*i ... 8*i+8)` and there are `⌈s.length / 8⌉` pieces. -/
def chunkList (s : List Char) : List (List Char) :=
  (List.range ((s.length + 7) / 8)).map fun i => (s.drop (8 * i)).take 8

/-- `parseInt(chunk, 2)` for a chunk of `'0'`/`'1'` characters (line 85):
the most-significant-bit-first binary value.  (The walk only ever produces
`'0'` and `'1'`, the sole case the source exercises.) -/
def binVal (l : List Char) : ℕ :=
  l.foldl (fun a c => 2 * a + if c = '1' then 1 else 0) 0

/-- Assembly of the candidate string (lines 82-89): take at most the first
20 chunks (`chunks.slice(0, 20)`), parse each as binary, and append
`String.fromCharCode(charCode)` exactly when `32 <= charCode <= 126`. -/
def chunksToResult (s : List Char) : List Char :=
  ((chunkList s).take 20).filterMap fun ch =>
    if 32 ≤ binVal ch ∧ binVal ch ≤ 126 then some (Char.ofNat (binVal ch)) else none

/-- One character of the class `[a-zA-Z0-9\-_]` tested by the regex on
line 92. -/
def charOK (c : Char) : Bool :=
  (decide ('a' ≤ c) && decide (c ≤ 'z')) || (decide ('A' ≤ c) && decide (c ≤ 'Z'))
    || (decide ('0' ≤ c) && decide (c ≤ '9')) || c == '-' || c == '_'

/-- Decimal digits of `n`, most significant first, computed with an explicit
structural bound (`n` itself) so that the definition reduces inside the
kernel.  `decGo fuel n` is the digit list of `n` whenever `n ≤ fuel`. -/
def decGo : ℕ → ℕ → List ℕ
  | _, 0 => []
  | 0, _ + 1 => []
  | fuel + 1, n + 1 => decGo fuel ((n + 1) / 10) ++ [(n + 1) % 10]

/-- The decimal string of a natural number, modelling JavaScript
`Number.prototype.toString()` for integer values (`Date.now().toString()`,
line 101). -/
def decChars (n : ℕ) : List Char :=
  if n = 0 then ['0'] else (decGo n n).map Nat.digitChar

/-- `s.slice(-6)` (line 101): the last 6 characters, or the whole string
when it is shorter than 6. -/
def lastSix (l : List Char) : List Char := l.drop (l.length - 6)

/-- The pattern-to-data extractor (lines 62-104): body of the
`patterns.length >= 3` conditional, else `null`.  Inside the branch the
candidate string is assembled from the centre-region walk; if it has length
greater than 3 and fully matches `[a-zA-Z0-9\-_]+` it is returned, and
otherwise the fallback identifier
``QR_${patternHash}_${Date.now().toString().slice(-6)}`` is returned, with
`patternHash` the first three candidates formatted `x-y` and joined by
`_`. -/
def extractData (gray : List ℕ) (width height thresh : ℕ)
    (patterns : List (ℕ × ℕ)) (now : ℕ) : Option String :=
  if 3 ≤ patterns.length then
    let result := String.mk (chunksToResult (walkBits gray width height thresh))
    if 3 < result.length ∧ result.data.all charOK = true then
      some result
    else
      let patternHash := String.intercalate "_"
        ((patterns.take 3).map fun p =>
          String.mk (decChars p.1) ++ "-" ++ String.mk (decChars p.2))
      some ("QR_" ++ patternHash ++ "_" ++ String.mk (lastSix (decChars now)))
  else none

/-- The whole detection core `jsQR` (lines 5-105): grayscale conversion,
finder-pattern scan with the fixed threshold 128 (line 14), then the
extractor. -/
def jsQR (data : List ℕ) (width height : ℕ) (now : ℕ) : Option String :=
  extractData (toGrayscale data width height) width height 128
    (findPatterns (toGrayscale data width height) width height 128) now

/-- Modelled from the spec's words (§4.3 steps 3-4), for refinement
comparison with `chunkList`: split into consecutive 8-character chunks with
any trailing partial chunk discarded, so only the `⌊s.length / 8⌋` full
pieces remain. -/
def fullChunks (s : List Char) : List (List Char) :=
  (List.range (s.length / 8)).map fun i => (s.drop (8 * i)).take 8

/-- Modelled from the spec's words (§4.3 steps 3-4), for refinement
comparison with `chunksToResult`: from the full chunks only, take at most
the first 20, parse each as binary and keep exactly the printable ASCII
range [32, 126]. -/
def specChunkResult (s : List Char) : List Char :=
  ((fullChunks s).take 20).filterMap fun ch =>
    if 32 ≤ binVal ch ∧ binVal ch ≤ 126 then some (Char.ofNat (binVal ch)) else none

/-- Sample `i` of the 28×22 witness image: dark exactly on the pixels with
`x % 3 = 0` or `y % 3 = 0`.  Every 7×7 window anchored at a multiple of 3
then shows 29 dark border/core cells and 12 light middle-ring cells, so
every scanned grid point is accepted. -/
def g22Fun (i : ℕ) : ℕ :=
  if (i % 28) % 3 = 0 ∨ (i / 28) % 3 = 0 then 0 else 255

/-- Witness buffer: the 28×22 luminance image generated by `g22Fun`. -/
def g22 : List ℕ := (List.range (28 * 22)).map g22Fun

/-- Byte `j` of the RGBA witness image whose grayscale is `g22` (equal
R, G, B channels reproduce their common value under the BT.601 round). -/
def data28Fun (j : ℕ) : ℕ :=
  if j % 4 = 3 then 0
  else if ((j / 4) % 28) % 3 = 0 ∨ ((j / 4) / 28) % 3 = 0 then 0 else 255

/-- Witness buffer: the RGBA image generated by `data28Fun`. -/
def data28 : List ℕ := (List.range (28 * 22 * 4)).map data28Fun

/-- Witness bit pattern: "ABCD" in 8-bit binary followed by 4 filler bits. -/
def bitsABCD : List Char := "010000010100001001000011010001000000".data

/-- Sample `i` of a 120×120 witness image whose centre-region walk
(36 samples at even coordinates 54..64 in both axes) reads off
`bitsABCD`. -/
def gVal (i : ℕ) : ℕ :=
  if 54 ≤ i / 120 ∧ i / 120 ≤ 64 ∧ (i / 120) % 2 = 0
      ∧ 54 ≤ i % 120 ∧ i % 120 ≤ 64 ∧ (i % 120) % 2 = 0 then
    if bitsABCD.getD (6 * ((i / 120 - 54) / 2) + (i % 120 - 54) / 2) '0' = '1' then 0 else 255
  else 255

/-- Witness buffer: the 120×120 luminance image generated by `gVal`. -/
def gABCD : List ℕ := (List.range (120 * 120)).map gVal

/-- Witness buffer: a perfect finder-pattern silhouette in the top-left 7×7
corner of an 8×8 image. -/
def g8 : List ℕ :=
  (List.range (8 * 8)).map fun i =>
    if i % 8 ≤ 6 ∧ i / 8 ≤ 6
        ∧ (i % 8 = 0 ∨ i % 8 = 6 ∨ i / 8 = 0 ∨ i / 8 = 6
            ∨ (2 ≤ i % 8 ∧ i % 8 ≤ 4 ∧ 2 ≤ i / 8 ∧ i / 8 ≤ 4)) then 0 else 255

end CameraRoom

namespace CameraRoom

/-! ### Helper lemmas -/

/-- With sufficient fuel, `nlog2go` is a lower floor logarithm. -/
theorem nlog2go_le (fuel : ℕ) : ∀ n, 1 ≤ n → n ≤ fuel → 2 ^ nlog2go fuel n ≤ n := by
  induction fuel with
  | zero => intro n h1 h2; omega
  | succ f ih =>
    intro n h1 h2
    by_cases hn : 2 ≤ n
    · simp only [nlog2go, if_pos hn, pow_succ]
      have := ih (n / 2) (by omega) (by omega)
      omega
    · simp only [nlog2go, if_neg hn, pow_zero]
      omega

/-- With sufficient fuel, `nlog2go` is an upper floor logarithm. -/
theorem nlog2go_lt (fuel : ℕ) : ∀ n, n ≤ fuel → n < 2 ^ (nlog2go fuel n + 1) := by
  induction fuel with
  | zero =>
    intro n h2
    have hz : nlog2go 0 n = 0 := rfl
    rw [hz]
    omega
  | succ f ih =>
    intro n h2
    by_cases hn : 2 ≤ n
    · simp only [nlog2go, if_pos hn, pow_succ]
      have := ih (n / 2) (by omega)
      omega
    · simp only [nlog2go, if_neg hn, pow_succ, pow_zero]
      omega

/-- With sufficient fuel, `nclog2go` is an upper ceiling logarithm. -/
theorem nclog2go_ge (fuel : ℕ) : ∀ n, n ≤ fuel → n ≤ 2 ^ nclog2go fuel n := by
  induction fuel with
  | zero =>
    intro n h2
    have hn : n = 0 := by omega
    subst hn
    exact Nat.zero_le _
  | succ f ih =>
    intro n h2
    by_cases hn : 2 ≤ n
    · simp only [nclog2go, if_pos hn, pow_succ]
      have := ih ((n + 1) / 2) (by omega)
      omega
    · simp only [nclog2go, if_neg hn, pow_zero]
      omega

/-- The ceiling logarithm of 1 is 0 at every fuel. -/
theorem nclog2go_one (fuel : ℕ) : nclog2go fuel 1 = 0 := by
  cases fuel with
  | zero => rfl
  | succ f => simp [nclog2go]

/-- The ceiling logarithm of `n ≥ 2` is positive. -/
theorem nclog2go_pos (fuel n : ℕ) (h2 : 2 ≤ n) (hf : n ≤ fuel) : 1 ≤ nclog2go fuel n := by
  match fuel with
  | 0 => omega
  | f + 1 =>
    simp only [nclog2go, if_pos h2]
    omega

/-- With sufficient fuel, `nclog2go` is a strict lower ceiling logarithm
for `n ≥ 2`. -/
theorem nclog2go_gt (fuel : ℕ) : ∀ n, 2 ≤ n → n ≤ fuel → 2 ^ (nclog2go fuel n - 1) < n := by
  induction fuel with
  | zero => intro n h2 hf; omega
  | succ f ih =>
    intro n h2 hf
    simp only [nclog2go, if_pos h2]
    by_cases h3 : 3 ≤ n
    · have hm2 : 2 ≤ (n + 1) / 2 := by omega
      have hmf : (n + 1) / 2 ≤ f := by omega
      have hIH := ih ((n + 1) / 2) hm2 hmf
      have hL := nclog2go_pos f ((n + 1) / 2) hm2 hmf
      have hstep : 2 ^ nclog2go f ((n + 1) / 2)
          = 2 ^ (nclog2go f ((n + 1) / 2) - 1) * 2 := by
        rw [← pow_succ]
        congr 1
        omega
      rw [show nclog2go f ((n + 1) / 2) + 1 - 1 = nclog2go f ((n + 1) / 2) by omega, hstep]
      omega
    · have hn2 : n = 2 := by omega
      subst hn2
      rw [show (2 + 1) / 2 = 1 by norm_num, nclog2go_one]
      norm_num

/-- `2 ^ ilog2 q` brackets a positive rational from below. -/
theorem ilog2_le (q : ℚ) (hq : 0 < q) : (2 : ℚ) ^ ilog2 q ≤ q := by
  rw [ilog2]
  split_ifs with h1
  · have hfl : 1 ≤ ⌊q⌋₊ := Nat.le_floor (by exact_mod_cast h1)
    have hnat : 2 ^ nlog2 ⌊q⌋₊ ≤ ⌊q⌋₊ := nlog2go_le ⌊q⌋₊ ⌊q⌋₊ hfl le_rfl
    have hcast : ((2 ^ nlog2 ⌊q⌋₊ : ℕ) : ℚ) ≤ (⌊q⌋₊ : ℚ) := by exact_mod_cast hnat
    have hfloor : ((⌊q⌋₊ : ℕ) : ℚ) ≤ q := Nat.floor_le hq.le
    rw [zpow_natCast]
    calc ((2 : ℚ)) ^ nlog2 ⌊q⌋₊ = ((2 ^ nlog2 ⌊q⌋₊ : ℕ) : ℚ) := by push_cast; ring
      _ ≤ q := le_trans hcast hfloor
  · have hinvpos : 0 < q⁻¹ := inv_pos.mpr hq
    have hceil : q⁻¹ ≤ (⌈q⁻¹⌉₊ : ℚ) := Nat.le_ceil _
    have hnat : (⌈q⁻¹⌉₊ : ℕ) ≤ 2 ^ nclog2 ⌈q⁻¹⌉₊ := nclog2go_ge ⌈q⁻¹⌉₊ ⌈q⁻¹⌉₊ le_rfl
    have hchain : q⁻¹ ≤ ((2 ^ nclog2 ⌈q⁻¹⌉₊ : ℕ) : ℚ) :=
      le_trans hceil (by exact_mod_cast hnat)
    have hfin : (((2 ^ nclog2 ⌈q⁻¹⌉₊ : ℕ) : ℚ))⁻¹ ≤ (q⁻¹)⁻¹ := inv_anti₀ hinvpos hchain
    rw [inv_inv] at hfin
    rw [zpow_neg, zpow_natCast]
    calc ((2 : ℚ) ^ nclog2 ⌈q⁻¹⌉₊)⁻¹ = (((2 ^ nclog2 ⌈q⁻¹⌉₊ : ℕ) : ℚ))⁻¹ := by
          push_cast; ring
      _ ≤ q := hfin

/-- `2 ^ (ilog2 q + 1)` brackets a positive rational from above. -/
theorem lt_ilog2_succ (q : ℚ) (hq : 0 < q) : q < (2 : ℚ) ^ (ilog2 q + 1) := by
  rw [ilog2]
  split_ifs with h1
  · have hnat : ⌊q⌋₊ < 2 ^ (nlog2 ⌊q⌋₊ + 1) := nlog2go_lt ⌊q⌋₊ ⌊q⌋₊ le_rfl
    have hfl : q < (⌊q⌋₊ : ℚ) + 1 := Nat.lt_floor_add_one q
    have hcast : ((⌊q⌋₊ : ℕ) : ℚ) + 1 ≤ ((2 ^ (nlog2 ⌊q⌋₊ + 1) : ℕ) : ℚ) := by
      exact_mod_cast hnat
    have hzp : (2 : ℚ) ^ ((nlog2 ⌊q⌋₊ : ℤ) + 1) = ((2 ^ (nlog2 ⌊q⌋₊ + 1) : ℕ) : ℚ) := by
      rw [show (nlog2 ⌊q⌋₊ : ℤ) + 1 = ((nlog2 ⌊q⌋₊ + 1 : ℕ) : ℤ) by push_cast; ring,
        zpow_natCast]
      push_cast; ring
    rw [hzp]
    linarith
  · have hlt1 : q < 1 := not_le.mp h1
    have hinv1 : 1 < q⁻¹ := (one_lt_inv₀ hq).mpr hlt1
    have hc2 : 2 ≤ ⌈q⁻¹⌉₊ := by
      have := Nat.lt_ceil.mpr (show ((1 : ℕ) : ℚ) < q⁻¹ by exact_mod_cast hinv1)
      omega
    have hC1 : 1 ≤ nclog2 ⌈q⁻¹⌉₊ := nclog2go_pos ⌈q⁻¹⌉₊ ⌈q⁻¹⌉₊ hc2 le_rfl
    have hnat : 2 ^ (nclog2 ⌈q⁻¹⌉₊ - 1) < ⌈q⁻¹⌉₊ := nclog2go_gt ⌈q⁻¹⌉₊ ⌈q⁻¹⌉₊ hc2 le_rfl
    have hceil : (⌈q⁻¹⌉₊ : ℚ) < q⁻¹ + 1 := Nat.ceil_lt_add_one (by positivity)
    have hlt : ((2 ^ (nclog2 ⌈q⁻¹⌉₊ - 1) : ℕ) : ℚ) < q⁻¹ := by
      have hstep : ((2 ^ (nclog2 ⌈q⁻¹⌉₊ - 1) : ℕ) : ℚ) + 1 ≤ (⌈q⁻¹⌉₊ : ℚ) := by
        exact_mod_cast hnat
      linarith
    have hpow : (0 : ℚ) < ((2 ^ (nclog2 ⌈q⁻¹⌉₊ - 1) : ℕ) : ℚ) := by positivity
    have hfin := inv_strictAnti₀ hpow hlt
    rw [inv_inv] at hfin
    have hzp : (((2 ^ (nclog2 ⌈q⁻¹⌉₊ - 1) : ℕ) : ℚ))⁻¹
        = (2 : ℚ) ^ (-(nclog2 ⌈q⁻¹⌉₊ : ℤ) + 1) := by
      rw [show -(nclog2 ⌈q⁻¹⌉₊ : ℤ) + 1 = -(((nclog2 ⌈q⁻¹⌉₊ - 1 : ℕ)) : ℤ) by
          rw [Nat.cast_sub hC1]; push_cast; ring,
        zpow_neg, zpow_natCast]
      push_cast; ring
    rw [← hzp]
    exact hfin

/-- Round-to-nearest-even moves a value by at most one half. -/
theorem rne_sub_abs (x : ℚ) : |(rne x : ℚ) - x| ≤ 1 / 2 := by
  have hf1 : (⌊x⌋ : ℚ) ≤ x := Int.floor_le x
  have hf2 : x < ⌊x⌋ + 1 := Int.lt_floor_add_one x
  rw [rne]
  split_ifs with h1 h2 h3 <;> rw [abs_le] <;> constructor <;> push_cast <;> linarith

/-- Round-to-nearest-even preserves nonnegativity. -/
theorem rne_nonneg (x : ℚ) (hx : 0 ≤ x) : 0 ≤ rne x := by
  have hfl : 0 ≤ ⌊x⌋ := Int.floor_nonneg.mpr hx
  rw [rne]
  split_ifs <;> omega

/-- Binary64 rounding preserves nonnegativity. -/
theorem fl_nonneg (q : ℚ) (hq : 0 ≤ q) : 0 ≤ fl q := by
  rw [fl]
  split_ifs with h1 h2
  · rw [flPos]
    have hm : (0 : ℚ) ≤ q / 2 ^ (ilog2 q - 52) := by positivity
    have hrm := rne_nonneg _ hm
    have hu : (0 : ℚ) ≤ 2 ^ (ilog2 q - 52) := by positivity
    exact mul_nonneg (by exact_mod_cast hrm) hu
  · linarith
  · exact le_refl 0

/-- Binary64 rounding of a nonnegative value below `2 ^ k` moves it by at
most `2 ^ (k - 54)` (half a unit in the last place of the `2 ^ k`
binade). -/
theorem fl_error (q : ℚ) (k : ℤ) (h0 : 0 ≤ q) (hk : q < 2 ^ k) :
    |fl q - q| ≤ 2 ^ (k - 54) := by
  rcases h0.lt_or_eq with hq | hq
  · rw [fl, if_pos hq, flPos]
    have he1 : (2 : ℚ) ^ ilog2 q ≤ q := ilog2_le q hq
    have hek : ilog2 q < k := by
      by_contra hcon
      push_neg at hcon
      have : (2 : ℚ) ^ k ≤ 2 ^ ilog2 q := zpow_le_zpow_right₀ (by norm_num) hcon
      linarith
    set u := (2 : ℚ) ^ (ilog2 q - 52) with hu_def
    have hu : (0 : ℚ) < u := by rw [hu_def]; positivity
    set m := q / u with hm_def
    have hmq : m * u = q := by
      rw [hm_def]
      field_simp
    have h1 : (rne m : ℚ) * u - q = ((rne m : ℚ) - m) * u := by
      linear_combination hmq
    rw [h1, abs_mul, abs_of_pos hu]
    have h2 := rne_sub_abs m
    have h3 : |(rne m : ℚ) - m| * u ≤ 1 / 2 * u :=
      mul_le_mul_of_nonneg_right h2 hu.le
    have h4 : (1 / 2 : ℚ) * u = 2 ^ (ilog2 q - 53) := by
      rw [hu_def, show (1 / 2 : ℚ) = 2 ^ (-1 : ℤ) by norm_num,
        ← zpow_add₀ (by norm_num : (2 : ℚ) ≠ 0)]
      congr 1
      omega
    have h5 : (2 : ℚ) ^ (ilog2 q - 53) ≤ 2 ^ (k - 54) :=
      zpow_le_zpow_right₀ (by norm_num) (by omega)
    linarith
  · subst hq
    have hfz : fl 0 = 0 := by rw [fl]; norm_num
    rw [hfz]
    simp only [sub_zero, abs_zero]
    positivity

/-- The IEEE-double luma stays within `1/2048` of the exact BT.601
quotient on 8-bit channels: the five roundings and three rounded constants
contribute at most `770 · 2⁻⁴⁴`. -/
theorem jsLuma_close (r g b : ℕ) (hr : r ≤ 255) (hg : g ≤ 255) (hb : b ≤ 255) :
    |jsLuma r g b - (299 * r + 587 * g + 114 * b) / 1000| ≤ 1 / 2048 := by
  have hB : (2 : ℚ) ^ (-44 : ℤ) = 1 / 17592186044416 := by norm_num
  have hBmono : ∀ k : ℤ, k ≤ -44 → (2 : ℚ) ^ k ≤ 1 / 17592186044416 := by
    intro k hk
    rw [← hB]
    exact zpow_le_zpow_right₀ (by norm_num) hk
  have hrQ : (r : ℚ) ≤ 255 := by exact_mod_cast hr
  have hgQ : (g : ℚ) ≤ 255 := by exact_mod_cast hg
  have hbQ : (b : ℚ) ≤ 255 := by exact_mod_cast hb
  have h0r : (0 : ℚ) ≤ r := Nat.cast_nonneg r
  have h0g : (0 : ℚ) ≤ g := Nat.cast_nonneg g
  have h0b : (0 : ℚ) ≤ b := Nat.cast_nonneg b
  have hc1 : |c0299 - 299 / 1000| ≤ 1 / 17592186044416 := by
    have h := fl_error (299 / 1000) (-1) (by norm_num) (by norm_num)
    calc |c0299 - 299 / 1000| = |fl (299 / 1000) - 299 / 1000| := by rw [c0299]
      _ ≤ 2 ^ ((-1 : ℤ) - 54) := h
      _ ≤ 1 / 17592186044416 := hBmono _ (by norm_num)
  have hc2 : |c0587 - 587 / 1000| ≤ 1 / 17592186044416 := by
    have h := fl_error (587 / 1000) 0 (by norm_num) (by norm_num)
    calc |c0587 - 587 / 1000| = |fl (587 / 1000) - 587 / 1000| := by rw [c0587]
      _ ≤ 2 ^ ((0 : ℤ) - 54) := h
      _ ≤ 1 / 17592186044416 := hBmono _ (by norm_num)
  have hc3 : |c0114 - 114 / 1000| ≤ 1 / 17592186044416 := by
    have h := fl_error (114 / 1000) (-3) (by norm_num) (by norm_num)
    calc |c0114 - 114 / 1000| = |fl (114 / 1000) - 114 / 1000| := by rw [c0114]
      _ ≤ 2 ^ ((-3 : ℤ) - 54) := h
      _ ≤ 1 / 17592186044416 := hBmono _ (by norm_num)
  obtain ⟨hc1l, hc1u⟩ := abs_le.mp hc1
  obtain ⟨hc2l, hc2u⟩ := abs_le.mp hc2
  obtain ⟨hc3l, hc3u⟩ := abs_le.mp hc3
  have hd1 : |c0299 * (r : ℚ) - 299 / 1000 * r| ≤ 255 / 17592186044416 := by
    rw [show c0299 * (r : ℚ) - 299 / 1000 * r = (c0299 - 299 / 1000) * r by ring,
      abs_mul, abs_of_nonneg h0r]
    calc |c0299 - 299 / 1000| * (r : ℚ) ≤ 1 / 17592186044416 * 255 :=
        mul_le_mul hc1 hrQ h0r (by norm_num)
      _ = 255 / 17592186044416 := by norm_num
  have hd2 : |c0587 * (g : ℚ) - 587 / 1000 * g| ≤ 255 / 17592186044416 := by
    rw [show c0587 * (g : ℚ) - 587 / 1000 * g = (c0587 - 587 / 1000) * g by ring,
      abs_mul, abs_of_nonneg h0g]
    calc |c0587 - 587 / 1000| * (g : ℚ) ≤ 1 / 17592186044416 * 255 :=
        mul_le_mul hc2 hgQ h0g (by norm_num)
      _ = 255 / 17592186044416 := by norm_num
  have hd3 : |c0114 * (b : ℚ) - 114 / 1000 * b| ≤ 255 / 17592186044416 := by
    rw [show c0114 * (b : ℚ) - 114 / 1000 * b = (c0114 - 114 / 1000) * b by ring,
      abs_mul, abs_of_nonneg h0b]
    calc |c0114 - 114 / 1000| * (b : ℚ) ≤ 1 / 17592186044416 * 255 :=
        mul_le_mul hc3 hbQ h0b (by norm_num)
      _ = 255 / 17592186044416 := by norm_num
  obtain ⟨hd1l, hd1u⟩ := abs_le.mp hd1
  obtain ⟨hd2l, hd2u⟩ := abs_le.mp hd2
  obtain ⟨hd3l, hd3u⟩ := abs_le.mp hd3
  have hp1pos : (0 : ℚ) ≤ c0299 * r := mul_nonneg (by linarith) h0r
  have hp2pos : (0 : ℚ) ≤ c0587 * g := mul_nonneg (by linarith) h0g
  have hp3pos : (0 : ℚ) ≤ c0114 * b := mul_nonneg (by linarith) h0b
  have hp1lt : c0299 * (r : ℚ) < 2 ^ (7 : ℤ) := by
    have hup : c0299 * (r : ℚ) ≤ 3 / 10 * 255 :=
      mul_le_mul (by linarith) hrQ h0r (by norm_num)
    have h2 : (2 : ℚ) ^ (7 : ℤ) = 128 := by norm_num
    linarith
  have hp2lt : c0587 * (g : ℚ) < 2 ^ (8 : ℤ) := by
    have hup : c0587 * (g : ℚ) ≤ 3 / 5 * 255 :=
      mul_le_mul (by linarith) hgQ h0g (by norm_num)
    have h2 : (2 : ℚ) ^ (8 : ℤ) = 256 := by norm_num
    linarith
  have hp3lt : c0114 * (b : ℚ) < 2 ^ (5 : ℤ) := by
    have hup : c0114 * (b : ℚ) ≤ 3 / 25 * 255 :=
      mul_le_mul (by linarith) hbQ h0b (by norm_num)
    have h2 : (2 : ℚ) ^ (5 : ℤ) = 32 := by norm_num
    linarith
  have he1 : |fl (c0299 * r) - c0299 * r| ≤ 1 / 17592186044416 :=
    le_trans (fl_error _ 7 hp1pos hp1lt) (hBmono _ (by norm_num))
  have he2 : |fl (c0587 * g) - c0587 * g| ≤ 1 / 17592186044416 :=
    le_trans (fl_error _ 8 hp2pos hp2lt) (hBmono _ (by norm_num))
  have he3 : |fl (c0114 * b) - c0114 * b| ≤ 1 / 17592186044416 :=
    le_trans (fl_error _ 5 hp3pos hp3lt) (hBmono _ (by norm_num))
  obtain ⟨he1l, he1u⟩ := abs_le.mp he1
  obtain ⟨he2l, he2u⟩ := abs_le.mp he2
  obtain ⟨he3l, he3u⟩ := abs_le.mp he3
  have hS1pos : (0 : ℚ) ≤ fl (c0299 * r) + fl (c0587 * g) :=
    add_nonneg (fl_nonneg _ hp1pos) (fl_nonneg _ hp2pos)
  have hS1lt : fl (c0299 * r) + fl (c0587 * g) < 2 ^ (8 : ℤ) := by
    have h2a : (2 : ℚ) ^ (7 : ℤ) = 128 := by norm_num
    have h2b : (2 : ℚ) ^ (8 : ℤ) = 256 := by norm_num
    linarith
  have he4 : |fl (fl (c0299 * r) + fl (c0587 * g)) - (fl (c0299 * r) + fl (c0587 * g))|
      ≤ 1 / 17592186044416 :=
    le_trans (fl_error _ 8 hS1pos hS1lt) (hBmono _ (by norm_num))
  obtain ⟨he4l, he4u⟩ := abs_le.mp he4
  have hS2pos : (0 : ℚ) ≤ fl (fl (c0299 * r) + fl (c0587 * g)) + fl (c0114 * b) :=
    add_nonneg (fl_nonneg _ hS1pos) (fl_nonneg _ hp3pos)
  have hS2lt : fl (fl (c0299 * r) + fl (c0587 * g)) + fl (c0114 * b) < 2 ^ (9 : ℤ) := by
    have h2a : (2 : ℚ) ^ (8 : ℤ) = 256 := by norm_num
    have h2b : (2 : ℚ) ^ (5 : ℤ) = 32 := by norm_num
    have h2c : (2 : ℚ) ^ (9 : ℤ) = 512 := by norm_num
    linarith
  have he5 : |jsLuma r g b - (fl (fl (c0299 * r) + fl (c0587 * g)) + fl (c0114 * b))|
      ≤ 1 / 17592186044416 := by
    rw [jsLuma]
    exact le_trans (fl_error _ 9 hS2pos hS2lt) (hBmono _ (by norm_num))
  obtain ⟨he5l, he5u⟩ := abs_le.mp he5
  rw [abs_le]
  constructor <;> [linarith; linarith]

/-- The rounded luma of 8-bit channels is itself 8-bit. -/
theorem lum_le_255 {r g b : ℕ} (hr : r ≤ 255) (hg : g ≤ 255) (hb : b ≤ 255) :
    lum r g b ≤ 255 := by
  obtain ⟨hjl, hju⟩ := abs_le.mp (jsLuma_close r g b hr hg hb)
  have hrQ : (r : ℚ) ≤ 255 := by exact_mod_cast hr
  have hgQ : (g : ℚ) ≤ 255 := by exact_mod_cast hg
  have hbQ : (b : ℚ) ≤ 255 := by exact_mod_cast hb
  have hexact : (299 * (r : ℚ) + 587 * g + 114 * b) / 1000 ≤ 255 := by
    rw [div_le_iff₀ (by norm_num)]
    linarith
  have hlt : jsLuma r g b + 1 / 2 < 256 := by linarith
  have hfloor : ⌊jsLuma r g b + 1 / 2⌋ < 256 := Int.floor_lt.mpr (by push_cast; linarith)
  rw [lum]
  omega

/-- Natural division by 1000 after adding 500 computes the round-half-up of
the exact rational quotient, i.e. JavaScript `Math.round` on a nonnegative
value. -/
theorem natDiv_eq_round (a : ℕ) :
    (((a + 500) / 1000 : ℕ) : ℤ) = round ((a : ℚ) / 1000) := by
  rw [round_eq]
  have h : (a : ℚ) / 1000 + 1 / 2 = ((a + 500 : ℕ) : ℚ) / 1000 := by
    push_cast; ring
  rw [h]
  symm
  rw [Int.floor_eq_iff]
  constructor
  · rw [le_div_iff₀ (by norm_num)]
    exact_mod_cast Nat.div_mul_le_self (a + 500) 1000
  · rw [div_lt_iff₀ (by norm_num)]
    push_cast
    have : a + 500 < ((a + 500) / 1000 + 1) * 1000 := by omega
    exact_mod_cast this

/-- Away from the half-integer ties of the exact quotient, the
double-precision luma rounds to the same integer as the exact BT.601
quotient: the float sits within `1/2048` of the exact value, while a
non-tie quotient keeps `x + 1/2` at least `1/1000` away from every
integer. -/
theorem lum_eq_round_of_ne_tie (r g b : ℕ) (hr : r ≤ 255) (hg : g ≤ 255) (hb : b ≤ 255)
    (htie : (299 * r + 587 * g + 114 * b) % 1000 ≠ 500) :
    (lum r g b : ℤ) = round ((299 * (r : ℚ) + 587 * g + 114 * b) / 1000) := by
  obtain ⟨hjl, hju⟩ := abs_le.mp (jsLuma_close r g b hr hg hb)
  have hcast : 299 * (r : ℚ) + 587 * g + 114 * b
      = ((299 * r + 587 * g + 114 * b : ℕ) : ℚ) := by push_cast; ring
  rw [hcast] at hjl hju ⊢
  rw [← natDiv_eq_round]
  have hq1 : (299 * r + 587 * g + 114 * b + 500) / 1000 * 1000
      ≤ 299 * r + 587 * g + 114 * b + 499 := by omega
  have hq2 : 299 * r + 587 * g + 114 * b + 501
      ≤ ((299 * r + 587 * g + 114 * b + 500) / 1000 + 1) * 1000 := by omega
  have hq1Q : (((299 * r + 587 * g + 114 * b + 500) / 1000 : ℕ) : ℚ) * 1000
      ≤ ((299 * r + 587 * g + 114 * b : ℕ) : ℚ) + 499 := by exact_mod_cast hq1
  have hq2Q : ((299 * r + 587 * g + 114 * b : ℕ) : ℚ) + 501
      ≤ ((((299 * r + 587 * g + 114 * b + 500) / 1000 : ℕ) : ℚ) + 1) * 1000 := by
    exact_mod_cast hq2
  have hfl : ⌊jsLuma r g b + 1 / 2⌋
      = (((299 * r + 587 * g + 114 * b + 500) / 1000 : ℕ) : ℤ) := by
    rw [Int.floor_eq_iff]
    constructor
    · rw [Int.cast_natCast]
      linarith
    · rw [Int.cast_natCast]
      linarith
  rw [lum, hfl, Int.toNat_natCast]

/-- Pointwise description of the grayscale buffer. -/
theorem toGrayscale_getD (data : List ℕ) (w h i : ℕ) (hi : i < w * h) :
    (toGrayscale data w h).getD i 0 =
      if 4 * i + 2 < data.length then
        min (lum (data.getD (4 * i) 0) (data.getD (4 * i + 1) 0) (data.getD (4 * i + 2) 0)) 255
      else 0 := by
  have hlen : i < (toGrayscale data w h).length := by
    simp [toGrayscale, hi]
  rw [List.getD_eq_getElem _ _ hlen]
  simp [toGrayscale]

/-- Counting a subset of the 7×7 grid with a double sum of indicators. -/
theorem card_filter_range7 (P : ℕ × ℕ → Prop) [DecidablePred P] :
    ((Finset.range 7 ×ˢ Finset.range 7).filter P).card
      = ∑ dy ∈ Finset.range 7, ∑ dx ∈ Finset.range 7, if P (dx, dy) then 1 else 0 := by
  rw [Finset.card_filter, Finset.sum_product, Finset.sum_comm]

/-- Membership characterisation of the finder-pattern scan. -/
theorem mem_findPatterns (gray : List ℕ) (w h t : ℕ) (p : ℕ × ℕ) :
    p ∈ findPatterns gray w h t ↔
      p.1 % 3 = 0 ∧ p.2 % 3 = 0 ∧ p.1 < w - 21 ∧ p.2 < h - 21
        ∧ isFinderPattern gray p.1 p.2 w h t = true := by
  obtain ⟨a, b⟩ := p
  simp only [findPatterns, List.mem_flatMap, List.mem_map, List.mem_filter, List.mem_range]
  constructor
  · rintro ⟨y, ⟨k, hk, rfl⟩, x, ⟨⟨⟨k2, hk2, rfl⟩, hf⟩, hxy⟩⟩
    injection hxy with h1 h2
    subst h1
    subst h2
    exact ⟨by omega, by omega, by omega, by omega, hf⟩
  · rintro ⟨ha, hb, haw, hbh, hf⟩
    exact ⟨b, ⟨b / 3, by omega, by omega⟩, a, ⟨⟨a / 3, by omega, by omega⟩, hf⟩, rfl⟩

/-- The scan output is sorted in row-major order: strictly increasing `y`,
and strictly increasing `x` within a row. -/
theorem pairwise_findPatterns (gray : List ℕ) (w h t : ℕ) :
    (findPatterns gray w h t).Pairwise
      (fun p q : ℕ × ℕ => p.2 < q.2 ∨ (p.2 = q.2 ∧ p.1 < q.1)) := by
  have hmul : ∀ n : ℕ, ((List.range n).map (· * 3)).Pairwise (· < ·) := by
    intro n
    rw [List.pairwise_map]
    exact (List.pairwise_lt_range n).imp (by omega)
  rw [findPatterns, List.flatMap_def, List.pairwise_flatten]
  constructor
  · intro l hl
    obtain ⟨y, hy, rfl⟩ := List.mem_map.mp hl
    rw [List.pairwise_map]
    exact ((hmul _).sublist (List.filter_sublist _)).imp fun hab => Or.inr ⟨rfl, hab⟩
  · rw [List.pairwise_map]
    refine (hmul _).imp ?_
    intro y1 y2 h12 p hp q hq
    obtain ⟨x1, _, rfl⟩ := List.mem_map.mp hp
    obtain ⟨x2, _, rfl⟩ := List.mem_map.mp hq
    exact Or.inl h12

/-- A binary chunk is bounded by 2 to its length. -/
theorem binVal_lt (l : List Char) : binVal l < 2 ^ l.length := by
  have aux : ∀ (l : List Char) (a : ℕ),
      l.foldl (fun a c => 2 * a + if c = '1' then 1 else 0) a < (a + 1) * 2 ^ l.length := by
    intro l
    induction l with
    | nil => intro a; simp
    | cons c l ih =>
      intro a
      have step := ih (2 * a + if c = '1' then 1 else 0)
      calc (c :: l).foldl (fun a c => 2 * a + if c = '1' then 1 else 0) a
          = l.foldl (fun a c => 2 * a + if c = '1' then 1 else 0)
              (2 * a + if c = '1' then 1 else 0) := rfl
        _ < (2 * a + (if c = '1' then 1 else 0) + 1) * 2 ^ l.length := step
        _ ≤ (a + 1) * 2 ^ (c :: l).length := by
            rw [List.length_cons, pow_succ]
            have hbit : (if c = '1' then 1 else 0) ≤ 1 := by split <;> omega
            calc (2 * a + (if c = '1' then 1 else 0) + 1) * 2 ^ l.length
                ≤ ((a + 1) * 2) * 2 ^ l.length := by
                  apply Nat.mul_le_mul_right; omega
              _ = (a + 1) * (2 ^ l.length * 2) := by ring
  have := aux l 0
  simpa using this

/-- Length of the trailing (possibly partial) chunk. -/
theorem tail_chunk_length (s : List Char) :
    ((s.drop (8 * (s.length / 8))).take 8).length = s.length % 8 := by
  rw [List.length_take, List.length_drop]
  have := Nat.mod_lt s.length (show 0 < 8 by norm_num)
  omega

/-- Under a residue bounded by 4 (the only residues the walk can produce),
the greedy chunk split and the spec's full-chunk split assemble the same
candidate string: the trailing partial chunk, when present, has at most 4
bits and therefore parses below 32. -/
theorem chunks_mod8_le4 (s : List Char) (hs : s.length % 8 ≤ 4) :
    chunksToResult s = specChunkResult s := by
  rcases eq_or_ne (s.length % 8) 0 with h0 | h0
  · have hq : (s.length + 7) / 8 = s.length / 8 := by omega
    rw [chunksToResult, specChunkResult, chunkList, fullChunks, hq]
  · have hq : (s.length + 7) / 8 = s.length / 8 + 1 := by omega
    have hsplit : chunkList s = fullChunks s ++ [(s.drop (8 * (s.length / 8))).take 8] := by
      rw [chunkList, fullChunks, hq, List.range_succ, List.map_append, List.map_singleton]
    have hfl : (fullChunks s).length = s.length / 8 := by
      simp [fullChunks]
    have htail : ¬(32 ≤ binVal ((s.drop (8 * (s.length / 8))).take 8)
        ∧ binVal ((s.drop (8 * (s.length / 8))).take 8) ≤ 126) := by
      have hlt := binVal_lt ((s.drop (8 * (s.length / 8))).take 8)
      rw [tail_chunk_length] at hlt
      have hpow : (2 : ℕ) ^ (s.length % 8) ≤ 2 ^ 4 :=
        Nat.pow_le_pow_right (by norm_num) hs
      intro hcon
      have : (2 : ℕ) ^ 4 = 16 := by norm_num
      omega
    rcases le_or_lt 20 (s.length / 8) with h20 | h20
    · rw [chunksToResult, specChunkResult, hsplit, List.take_append_eq_append_take, hfl]
      have h0' : 20 - s.length / 8 = 0 := by omega
      rw [h0', List.take_zero, List.append_nil]
    · have ht1 : (chunkList s).take 20
          = fullChunks s ++ [(s.drop (8 * (s.length / 8))).take 8] := by
        rw [hsplit]
        exact List.take_of_length_le (by rw [List.length_append, hfl]; simp; omega)
      have ht2 : (fullChunks s).take 20 = fullChunks s :=
        List.take_of_length_le (by rw [hfl]; omega)
      have hnone : (if 32 ≤ binVal ((s.drop (8 * (s.length / 8))).take 8)
            ∧ binVal ((s.drop (8 * (s.length / 8))).take 8) ≤ 126 then
          some (Char.ofNat (binVal ((s.drop (8 * (s.length / 8))).take 8))) else none)
          = none := if_neg htail
      rw [chunksToResult, specChunkResult, ht1, ht2, List.filterMap_append]
      simp [List.filterMap_cons, hnone]

end CameraRoom

namespace CameraRoom

/-- Every position the walk visits passes the source's bounds guard: the
extraction window always fits inside the image, because
`extractSize ≤ min(width, height) / 10`. -/
theorem walk_inbounds (w h : ℕ) (j k : ℕ)
    (hj : j < (extractSize w h + 1) / 2) (hk : k < (extractSize w h + 1) / 2) :
    0 ≤ 2 * ((w : ℤ) / 2) - extractSize w h + 4 * (j : ℤ)
      ∧ 2 * ((w : ℤ) / 2) - extractSize w h + 4 * (j : ℤ) < 2 * w
      ∧ 0 ≤ 2 * ((h : ℤ) / 2) - extractSize w h + 4 * (k : ℤ)
      ∧ 2 * ((h : ℤ) / 2) - extractSize w h + 4 * (k : ℤ) < 2 * h := by
  have hew : extractSize w h ≤ w / 10 :=
    le_trans (min_le_right _ _) (Nat.div_le_div_right (min_le_left w h))
  have heh : extractSize w h ≤ h / 10 :=
    le_trans (min_le_right _ _) (Nat.div_le_div_right (min_le_right w h))
  have h1 : 10 * extractSize w h ≤ w := by omega
  have h2 : 10 * extractSize w h ≤ h := by omega
  refine ⟨?_, ?_, ?_, ?_⟩ <;> omega

/-- On visited positions the guarded append emits its character. -/
theorem walkChar_eq_some (gray : List ℕ) (w h t : ℕ) (j k : ℕ)
    (hj : j < (extractSize w h + 1) / 2) (hk : k < (extractSize w h + 1) / 2) :
    walkChar gray w h t
        (2 * ((w : ℤ) / 2) - extractSize w h + 4 * (j : ℤ))
        (2 * ((h : ℤ) / 2) - extractSize w h + 4 * (k : ℤ))
      = some (walkCharVal gray w t
          (2 * ((w : ℤ) / 2) - extractSize w h + 4 * (j : ℤ))
          (2 * ((h : ℤ) / 2) - extractSize w h + 4 * (k : ℤ))) := by
  rw [walkChar, if_pos (walk_inbounds w h j k hj hk)]

/-- On visited positions the guarded append emits a character. -/
theorem walkChar_isSome (gray : List ℕ) (w h t : ℕ) (j k : ℕ)
    (hj : j < (extractSize w h + 1) / 2) (hk : k < (extractSize w h + 1) / 2) :
    (walkChar gray w h t
        (2 * ((w : ℤ) / 2) - extractSize w h + 4 * j)
        (2 * ((h : ℤ) / 2) - extractSize w h + 4 * k)).isSome = true := by
  rw [walkChar_eq_some gray w h t j k hj hk]
  rfl

/-- A `filterMap` whose function never drops an element preserves length. -/
theorem length_filterMap_of_isSome {α β : Type} (f : α → Option β) (l : List α)
    (h : ∀ a ∈ l, (f a).isSome = true) : (l.filterMap f).length = l.length := by
  induction l with
  | nil => rfl
  | cons a l ih =>
    have ha := h a (List.mem_cons_self ..)
    rw [List.filterMap_cons]
    cases hfa : f a with
    | none => rw [hfa] at ha; simp at ha
    | some b =>
      simp only [List.length_cons]
      rw [ih fun x hx => h x (List.mem_cons_of_mem _ hx)]

/-- The walk emits exactly `⌈extractSize/2⌉²` characters: the bounds guard
never fires, and both loops take `⌈extractSize/2⌉` steps. -/
theorem walkBits_length (gray : List ℕ) (w h t : ℕ) :
    (walkBits gray w h t).length
      = ((extractSize w h + 1) / 2) * ((extractSize w h + 1) / 2) := by
  rw [walkBits, List.length_flatMap]
  rw [List.map_congr_left (g := fun _ => (extractSize w h + 1) / 2) ?_]
  · rw [List.map_const', List.length_range, List.sum_replicate, smul_eq_mul]
  · intro k hk
    simp only [Function.comp_apply]
    rw [length_filterMap_of_isSome _ _ fun j hj =>
      walkChar_isSome gray w h t j k (List.mem_range.mp hj) (List.mem_range.mp hk)]
    exact List.length_range _

/-- Squares leave residue 0, 1 or 4 modulo 8. -/
theorem sq_mod_eight (n : ℕ) : n * n % 8 = 0 ∨ n * n % 8 = 1 ∨ n * n % 8 = 4 := by
  have h8 : n % 8 < 8 := Nat.mod_lt _ (by norm_num)
  have key : ∀ m, m < 8 → m * m % 8 = 0 ∨ m * m % 8 = 1 ∨ m * m % 8 = 4 := by decide
  rw [Nat.mul_mod]
  exact key (n % 8) h8

/-- The assembled candidate string never exceeds 20 characters. -/
theorem chunksToResult_length_le (s : List Char) : (chunksToResult s).length ≤ 20 :=
  le_trans (List.length_filterMap_le _ _)
    (by rw [List.length_take]; exact min_le_left _ _)

/-- `decGo` computes the base-10 digit list (most significant first)
whenever its fuel is sufficient. -/
theorem decGo_eq_digits (n : ℕ) : ∀ fuel, n ≤ fuel → decGo fuel n = (Nat.digits 10 n).reverse := by
  induction n using Nat.strong_induction_on with
  | _ n ih =>
    match n with
    | 0 => intro fuel _; cases fuel <;> simp [decGo]
    | m + 1 =>
      intro fuel hf
      match fuel with
      | 0 => omega
      | f + 1 =>
        rw [decGo]
        rw [ih ((m + 1) / 10) (Nat.div_lt_self (Nat.succ_pos m) (by norm_num)) f (by omega)]
        rw [Nat.digits_def' (b := 10) (by norm_num) (Nat.succ_pos m)]
        rw [List.reverse_cons]

/-- Digit characters of values below 10 satisfy `Char.isDigit`. -/
theorem digitChar_isDigit : ∀ d, d < 10 → (Nat.digitChar d).isDigit = true := by decide

/-- Every character of the decimal string is a digit. -/
theorem decChars_isDigit (n : ℕ) : ∀ c ∈ decChars n, c.isDigit = true := by
  intro c hc
  rw [decChars] at hc
  by_cases hn : n = 0
  · rw [if_pos hn] at hc
    simp only [List.mem_singleton] at hc
    subst hc
    decide
  · rw [if_neg hn, decGo_eq_digits n n le_rfl] at hc
    obtain ⟨d, hd, rfl⟩ := List.mem_map.mp hc
    exact digitChar_isDigit d (Nat.digits_lt_base (by norm_num) (List.mem_reverse.mp hd))

/-- A time of at least 100000 ms has a decimal representation of at least
6 digits. -/
theorem decChars_len (n : ℕ) (hn : 100000 ≤ n) : 6 ≤ (decChars n).length := by
  rw [decChars, if_neg (by omega), List.length_map, decGo_eq_digits n n le_rfl,
    List.length_reverse, Nat.digits_len 10 n (by norm_num) (by omega)]
  have h5 : 5 ≤ Nat.log 10 n :=
    (Nat.pow_le_iff_le_log (by norm_num) (by omega)).mp (by norm_num; omega)
  omega

end CameraRoom

namespace CameraRoom

/-- `extractData` with its `let` bindings inlined, for case analysis. -/
theorem extractData_eq (gray : List ℕ) (w h t : ℕ) (pats : List (ℕ × ℕ)) (now : ℕ) :
    extractData gray w h t pats now =
      if 3 ≤ pats.length then
        if 3 < (chunksToResult (walkBits gray w h t)).length
            ∧ (chunksToResult (walkBits gray w h t)).all charOK = true then
          some (String.mk (chunksToResult (walkBits gray w h t)))
        else
          some ("QR_" ++ String.intercalate "_" ((pats.take 3).map fun p =>
              String.mk (decChars p.1) ++ "-" ++ String.mk (decChars p.2))
            ++ "_" ++ String.mk (lastSix (decChars now)))
      else none := rfl

/-! ### Claim theorems -/

/-- C1: for every grayscale buffer, width, height (and time), the detection
core returns `none` if and only if the finder-pattern scan yields fewer than
3 candidates; with at least 3 candidates it always returns a result carrying
a data string — no other failure outcome exists. -/
theorem claim_absent_iff_few_candidates (data : List ℕ) (w h now : ℕ) :
    (jsQR data w h now = none
        ↔ (findPatterns (toGrayscale data w h) w h 128).length < 3)
      ∧ (3 ≤ (findPatterns (toGrayscale data w h) w h 128).length
          → ∃ s : String, jsQR data w h now = some s) := by
  constructor
  · rw [jsQR, extractData_eq]
    by_cases h3 : 3 ≤ (findPatterns (toGrayscale data w h) w h 128).length
    · rw [if_pos h3]
      constructor
      · intro hnone
        exfalso
        revert hnone
        split <;> simp
      · intro hlt
        omega
    · rw [if_neg h3]
      exact ⟨fun _ => by omega, fun _ => rfl⟩
  · intro h3
    rw [jsQR, extractData_eq, if_pos h3]
    split
    · exact ⟨_, rfl⟩
    · exact ⟨_, rfl⟩

/-- C2: on every bit string the centre-region walk can produce, the
extractor's chunking (greedy 8-character pieces, first 20, base-2 parse,
keep [32, 126]) coincides with the spec's description in which the trailing
partial chunk is discarded: walk outputs have perfect-square length, so the
partial chunk has 1 or 4 bits and can never parse into [32, 126]. -/
theorem claim_chunking_refines_spec (gray : List ℕ) (w h t : ℕ) :
    chunksToResult (walkBits gray w h t) = specChunkResult (walkBits gray w h t) := by
  apply chunks_mod8_le4
  rw [walkBits_length]
  rcases sq_mod_eight ((extractSize w h + 1) / 2) with h1 | h1 | h1 <;> omega

/-- C3: for an origin whose 7×7 window fits the code's bounds guard, the
window is classified as a finder pattern iff at least 20 of the border-ring
or inner-core cells are dark (strictly below threshold) and at least 8 of
the remaining 16 middle-ring cells are light (at or above threshold). -/
theorem claim_window_classification (gray : List ℕ) (x y w h t : ℕ)
    (hx : x + 7 < w) (hy : y + 7 < h) :
    isFinderPattern gray x y w h t = true ↔
      20 ≤ ((Finset.range 7 ×ˢ Finset.range 7).filter fun d : ℕ × ℕ =>
          (d.1 = 0 ∨ d.1 = 6 ∨ d.2 = 0 ∨ d.2 = 6
              ∨ (2 ≤ d.1 ∧ d.1 ≤ 4 ∧ 2 ≤ d.2 ∧ d.2 ≤ 4))
            ∧ gray.getD ((y + d.2) * w + (x + d.1)) 0 < t).card
        ∧ 8 ≤ ((Finset.range 7 ×ˢ Finset.range 7).filter fun d : ℕ × ℕ =>
          ¬(d.1 = 0 ∨ d.1 = 6 ∨ d.2 = 0 ∨ d.2 = 6)
            ∧ ¬(2 ≤ d.1 ∧ d.1 ≤ 4 ∧ 2 ≤ d.2 ∧ d.2 ≤ 4)
            ∧ t ≤ gray.getD ((y + d.2) * w + (x + d.1)) 0).card := by
  have hdark : ((Finset.range 7 ×ˢ Finset.range 7).filter fun d : ℕ × ℕ =>
      (d.1 = 0 ∨ d.1 = 6 ∨ d.2 = 0 ∨ d.2 = 6
          ∨ (2 ≤ d.1 ∧ d.1 ≤ 4 ∧ 2 ≤ d.2 ∧ d.2 ≤ 4))
        ∧ gray.getD ((y + d.2) * w + (x + d.1)) 0 < t).card = darkCount gray x y w t := by
    rw [card_filter_range7, darkCount]
    refine Finset.sum_congr rfl fun dy _ => Finset.sum_congr rfl fun dx _ => ?_
    have hpoint : ((dx = 0 ∨ dx = 6 ∨ dy = 0 ∨ dy = 6
          ∨ (2 ≤ dx ∧ dx ≤ 4 ∧ 2 ≤ dy ∧ dy ≤ 4))
        ∧ gray.getD ((y + dy) * w + (x + dx)) 0 < t)
        ↔ ((isEdge dx dy || isInner dx dy)
            && decide (gray.getD ((y + dy) * w + (x + dx)) 0 < t)) = true := by
      simp only [isEdge, isInner, Bool.and_eq_true, Bool.or_eq_true, beq_iff_eq,
        decide_eq_true_eq]
      tauto
    exact if_congr hpoint rfl rfl
  have hlight : ((Finset.range 7 ×ˢ Finset.range 7).filter fun d : ℕ × ℕ =>
      ¬(d.1 = 0 ∨ d.1 = 6 ∨ d.2 = 0 ∨ d.2 = 6)
        ∧ ¬(2 ≤ d.1 ∧ d.1 ≤ 4 ∧ 2 ≤ d.2 ∧ d.2 ≤ 4)
        ∧ t ≤ gray.getD ((y + d.2) * w + (x + d.1)) 0).card = lightCount gray x y w t := by
    rw [card_filter_range7, lightCount]
    refine Finset.sum_congr rfl fun dy _ => Finset.sum_congr rfl fun dx _ => ?_
    have hpoint : (¬(dx = 0 ∨ dx = 6 ∨ dy = 0 ∨ dy = 6)
        ∧ ¬(2 ≤ dx ∧ dx ≤ 4 ∧ 2 ≤ dy ∧ dy ≤ 4)
        ∧ t ≤ gray.getD ((y + dy) * w + (x + dx)) 0)
        ↔ ((!isEdge dx dy && !isInner dx dy)
            && decide (t ≤ gray.getD ((y + dy) * w + (x + dx)) 0)) = true := by
      simp only [isEdge, isInner, Bool.and_eq_true, Bool.not_eq_true', Bool.or_eq_false_iff,
        Bool.and_eq_false_iff, beq_eq_false_iff_ne, ne_eq, decide_eq_true_eq,
        decide_eq_false_iff_not]
      tauto
    exact if_congr hpoint rfl rfl
  rw [isFinderPattern, if_neg (by omega), windowMatch, Bool.and_eq_true,
    decide_eq_true_eq, decide_eq_true_eq, hdark, hlight]

/-- C4: the locator returns exactly the grid candidates — `x` and `y`
multiples of 3 below `width − 21` resp. `height − 21` whose window passes
classification — in row-major order (increasing `y`, then increasing `x`);
in particular the sequence is empty when no window qualifies. -/
theorem claim_locator_exact (gray : List ℕ) (w h t : ℕ) :
    (∀ p : ℕ × ℕ, p ∈ findPatterns gray w h t ↔
        p.1 % 3 = 0 ∧ p.2 % 3 = 0 ∧ p.1 < w - 21 ∧ p.2 < h - 21
          ∧ isFinderPattern gray p.1 p.2 w h t = true)
      ∧ (findPatterns gray w h t).Pairwise
          (fun p q : ℕ × ℕ => p.2 < q.2 ∨ (p.2 = q.2 ∧ p.1 < q.1)) :=
  ⟨mem_findPatterns gray w h t, pairwise_findPatterns gray w h t⟩

/-- C9: every candidate the locator produces fits a 7×7 window inside the
buffer — coordinates lie in [0, width − 8] × [0, height − 8] — and a window
that would overrun the buffer is rejected before classification. -/
theorem claim_candidate_bounds (gray : List ℕ) (w h t : ℕ) :
    (∀ p ∈ findPatterns gray w h t, p.1 ≤ w - 8 ∧ p.2 ≤ h - 8)
      ∧ ∀ x y : ℕ, w ≤ x + 7 ∨ h ≤ y + 7 → isFinderPattern gray x y w h t = false := by
  constructor
  · intro p hp
    have hmem := (mem_findPatterns gray w h t p).mp hp
    omega
  · intro x y hb
    rw [isFinderPattern, if_pos hb]

/-- C10: on every grid position the scan loops generate, the out-of-bounds
early return of the window classifier cannot fire: the grid bounds already
force the 7×7 window inside the buffer, so the classification body runs. -/
theorem claim_grid_guard_unreachable (gray : List ℕ) (w h t i j : ℕ)
    (hi : 3 * i < w - 21) (hj : 3 * j < h - 21) :
    ¬(w ≤ 3 * i + 7 ∨ h ≤ 3 * j + 7)
      ∧ isFinderPattern gray (3 * i) (3 * j) w h t = windowMatch gray (3 * i) (3 * j) w t :=
  ⟨by omega, by rw [isFinderPattern, if_neg (by omega)]⟩

end CameraRoom

namespace CameraRoom

/-- C6: with at least 3 candidates, if the assembled candidate string has
length greater than 3 and consists entirely of characters from
`[A-Za-z0-9\-_]`, the extractor returns exactly that string as the data. -/
theorem claim_extractor_returns_candidate (gray : List ℕ) (w h t : ℕ)
    (pats : List (ℕ × ℕ)) (now : ℕ) (h3 : 3 ≤ pats.length)
    (hlen : 3 < (chunksToResult (walkBits gray w h t)).length)
    (hok : (chunksToResult (walkBits gray w h t)).all charOK = true) :
    extractData gray w h t pats now
      = some (String.mk (chunksToResult (walkBits gray w h t))) := by
  rw [extractData_eq, if_pos h3, if_pos ⟨hlen, hok⟩]

/-- C5: with at least 3 candidates and a failing candidate string, the
extractor returns `"QR_"` followed by the first 3 candidates formatted
`x-y` and joined by `_`, then `_` and the last 6 digits of the decimal
time; for a realistic clock (at least 100000 ms) that suffix is exactly 6
digit characters. -/
theorem claim_extractor_fallback (gray : List ℕ) (w h t : ℕ)
    (pats : List (ℕ × ℕ)) (now : ℕ) (h3 : 3 ≤ pats.length)
    (hfail : ¬(3 < (chunksToResult (walkBits gray w h t)).length
        ∧ (chunksToResult (walkBits gray w h t)).all charOK = true))
    (hnow : 100000 ≤ now) :
    extractData gray w h t pats now
        = some ("QR_" ++ String.intercalate "_" ((pats.take 3).map fun p =>
            String.mk (decChars p.1) ++ "-" ++ String.mk (decChars p.2))
          ++ "_" ++ String.mk (lastSix (decChars now)))
      ∧ (lastSix (decChars now)).length = 6
      ∧ ∀ c ∈ lastSix (decChars now), c.isDigit = true := by
  refine ⟨?_, ?_, ?_⟩
  · rw [extractData_eq, if_pos h3, if_neg hfail]
  · rw [lastSix, List.length_drop]
    have h6 := decChars_len now hnow
    omega
  · intro c hc
    exact decChars_isDigit now c (List.mem_of_mem_drop hc)

/-- C7 (corrected): on an RGBA buffer of length `width*height*4` with
8-bit channels, the grayscale converter yields exactly `width*height`
samples; sample `i` is `Math.round` of the IEEE-double evaluation of the
BT.601 luma of pixel `i` — which agrees with the round of the exact
quotient whenever `299·R + 587·G + 114·B` is not congruent to 500 modulo
1000 — every sample is at most 255, and the alpha channel has no effect on
the output.  (The spec's unconditional "round of the exact luma" is
refuted by `claim_grayscale_spec_counterexample`: at the tie
`(R,G,B) = (0,36,12)` the accumulated float error pushes 22.5 just below
the half, so the program rounds down where exact arithmetic rounds up.) -/
theorem claim_grayscale_spec (data : List ℕ) (w h : ℕ) (_hw : 0 < w) (_hh : 0 < h)
    (hlen : data.length = w * h * 4) (hbyte : ∀ v ∈ data, v ≤ 255) :
    (toGrayscale data w h).length = w * h
      ∧ (∀ i, i < w * h →
          (toGrayscale data w h).getD i 0
              = lum (data.getD (4 * i) 0) (data.getD (4 * i + 1) 0) (data.getD (4 * i + 2) 0)
            ∧ ((299 * data.getD (4 * i) 0 + 587 * data.getD (4 * i + 1) 0
                  + 114 * data.getD (4 * i + 2) 0) % 1000 ≠ 500 →
                ((toGrayscale data w h).getD i 0 : ℤ)
                  = round ((299 * (data.getD (4 * i) 0 : ℚ)
                      + 587 * (data.getD (4 * i + 1) 0 : ℚ)
                      + 114 * (data.getD (4 * i + 2) 0 : ℚ)) / 1000))
            ∧ (toGrayscale data w h).getD i 0 ≤ 255)
      ∧ ∀ data2 : List ℕ, data2.length = data.length →
          (∀ j, j % 4 ≠ 3 → data2.getD j 0 = data.getD j 0) →
          toGrayscale data2 w h = toGrayscale data w h := by
  refine ⟨by simp [toGrayscale], fun i hi => ?_, fun data2 hlen2 hagree => ?_⟩
  · have hin : 4 * i + 2 < data.length := by omega
    have hr : data.getD (4 * i) 0 ≤ 255 := by
      rw [List.getD_eq_getElem _ _ (by omega)]
      exact hbyte _ (List.getElem_mem _)
    have hg : data.getD (4 * i + 1) 0 ≤ 255 := by
      rw [List.getD_eq_getElem _ _ (by omega)]
      exact hbyte _ (List.getElem_mem _)
    have hb : data.getD (4 * i + 2) 0 ≤ 255 := by
      rw [List.getD_eq_getElem _ _ (by omega)]
      exact hbyte _ (List.getElem_mem _)
    rw [toGrayscale_getD data w h i hi, if_pos hin,
      min_eq_left (lum_le_255 hr hg hb)]
    exact ⟨rfl, fun htie => lum_eq_round_of_ne_tie _ _ _ hr hg hb htie,
      lum_le_255 hr hg hb⟩
  · rw [toGrayscale, toGrayscale]
    apply List.map_congr_left
    intro p _
    rw [hlen2]
    by_cases hc : 4 * p + 2 < data.length
    · rw [if_pos hc, if_pos hc,
        hagree (4 * p) (by omega), hagree (4 * p + 1) (by omega), hagree (4 * p + 2) (by omega)]
    · rw [if_neg hc, if_neg hc]

/-- C8: whenever the detection core returns a result, its data string is
nonempty, and it is either a string of length 4 to 20 made only of
characters from `[A-Za-z0-9\-_]` (printable path) or a string beginning
with `"QR_"` (fallback path). -/
theorem claim_result_shape (data : List ℕ) (w h now : ℕ) (r : String)
    (hr : jsQR data w h now = some r) :
    r ≠ "" ∧ ((4 ≤ r.length ∧ r.length ≤ 20 ∧ r.data.all charOK = true)
      ∨ ∃ s : String, r = "QR_" ++ s) := by
  rw [jsQR, extractData_eq] at hr
  by_cases h3 : 3 ≤ (findPatterns (toGrayscale data w h) w h 128).length
  · rw [if_pos h3] at hr
    by_cases hc : 3 < (chunksToResult (walkBits (toGrayscale data w h) w h 128)).length
        ∧ (chunksToResult (walkBits (toGrayscale data w h) w h 128)).all charOK = true
    · rw [if_pos hc] at hr
      obtain rfl := Option.some.inj hr
      have hml : (String.mk (chunksToResult (walkBits (toGrayscale data w h) w h 128))).length
          = (chunksToResult (walkBits (toGrayscale data w h) w h 128)).length := rfl
      refine ⟨?_, Or.inl ⟨by omega, ?_, hc.2⟩⟩
      · intro he
        have hd := congrArg String.data he
        simp only [String.data] at hd
        rw [hd] at hc
        simp at hc
      · rw [hml]
        exact chunksToResult_length_le _
    · rw [if_neg hc] at hr
      obtain rfl := Option.some.inj hr
      constructor
      · intro he
        have hd := congrArg String.data he
        rw [String.data_append, String.data_append, String.data_append] at hd
        simp at hd
      · right
        exact ⟨_, by rw [String.append_assoc, String.append_assoc]⟩
  · rw [if_neg h3] at hr
    exact absurd hr (by simp)

end CameraRoom

namespace CameraRoom

/-! ### Witness support

The witness images are lists of a few thousand samples.  Evaluating a read
that deep inside the evaluator overflows its recursion budget, so reads
into the large buffers are first rewritten pointwise — `getD` on
`(List.range n).map f` is `f` itself — and only shallow residual
computations are left to `decide`. -/

set_option maxRecDepth 20000

set_option maxHeartbeats 2000000

/-- Pointwise description of a buffer generated by mapping over a range. -/
theorem getD_range_map (f : ℕ → ℕ) (n i : ℕ) (hi : i < n) :
    ((List.range n).map f).getD i 0 = f i := by
  rw [List.getD_eq_getElem _ _ (by simpa using hi), List.getElem_map, List.getElem_range]

/-- A `filterMap` that always succeeds is the `map` of the payloads. -/
theorem filterMap_eq_map_of_some {α β : Type} {f : α → Option β} {g : α → β} {l : List α}
    (h : ∀ a ∈ l, f a = some (g a)) : l.filterMap f = l.map g := by
  induction l with
  | nil => rfl
  | cons a l ih =>
    rw [List.filterMap_cons, h a (List.mem_cons_self ..), List.map_cons,
      ih fun x hx => h x (List.mem_cons_of_mem _ hx)]

/-- The walk, with the always-true bounds guard eliminated: a plain map
over the visited grid. -/
theorem walkBits_eq_map (gray : List ℕ) (w h t : ℕ) :
    walkBits gray w h t
      = (List.range ((extractSize w h + 1) / 2)).flatMap fun k : ℕ =>
          (List.range ((extractSize w h + 1) / 2)).map fun j : ℕ =>
            walkCharVal gray w t
              (2 * ((w : ℤ) / 2) - extractSize w h + 4 * (j : ℤ))
              (2 * ((h : ℤ) / 2) - extractSize w h + 4 * (k : ℤ)) := by
  rw [walkBits, List.flatMap_def, List.flatMap_def]
  congr 1
  apply List.map_congr_left
  intro k hk
  exact filterMap_eq_map_of_some fun j hj =>
    walkChar_eq_some gray w h t j k (List.mem_range.mp hj) (List.mem_range.mp hk)

/-- The grayscale of the RGBA witness image is the luminance witness
image. -/
theorem toGrayscale_data28 : toGrayscale data28 28 22 = g22 := by
  rw [toGrayscale, g22]
  apply List.map_congr_left
  intro p hp
  have hp2 : p < 28 * 22 := List.mem_range.mp hp
  have hlen : data28.length = 28 * 22 * 4 := by simp [data28]
  rw [hlen, if_pos (by omega), data28,
    getD_range_map _ _ _ (by omega), getD_range_map _ _ _ (by omega),
    getD_range_map _ _ _ (by omega)]
  have e0 : data28Fun (4 * p) = g22Fun p := by
    rw [data28Fun, g22Fun, if_neg (by omega)]
    rw [show 4 * p / 4 = p by omega]
  have e1 : data28Fun (4 * p + 1) = g22Fun p := by
    rw [data28Fun, g22Fun, if_neg (by omega)]
    rw [show (4 * p + 1) / 4 = p by omega]
  have e2 : data28Fun (4 * p + 2) = g22Fun p := by
    rw [data28Fun, g22Fun, if_neg (by omega)]
    rw [show (4 * p + 2) / 4 = p by omega]
  rw [e0, e1, e2]
  have hval : g22Fun p = 0 ∨ g22Fun p = 255 := by
    rw [g22Fun]
    split
    · exact Or.inl rfl
    · exact Or.inr rfl
  rcases hval with hc | hc <;> rw [hc] <;> with_unfolding_all decide

/-- Every character of the witness bit pattern is a binary digit. -/
theorem bitsABCD_getD (m : ℕ) : bitsABCD.getD m '0' = '0' ∨ bitsABCD.getD m '0' = '1' := by
  rcases lt_or_le m 36 with hm | hm
  · have key : ∀ m', m' < 36 → bitsABCD.getD m' '0' = '0' ∨ bitsABCD.getD m' '0' = '1' := by
      decide
    exact key m hm
  · left
    have h36 : bitsABCD.length ≤ m := by
      have hlen : bitsABCD.length = 36 := by decide
      omega
    exact List.getD_eq_default _ _ h36

/-- The walk sample of the `gABCD` witness at grid step (j, k) is bit
`6*k + j` of the pattern. -/
theorem walkCharVal_gABCD (j k : ℕ) (hj : j < 6) (hk : k < 6) :
    walkCharVal gABCD 120 128
        (2 * ((120 : ℤ) / 2) - extractSize 120 120 + 4 * (j : ℤ))
        (2 * ((120 : ℤ) / 2) - extractSize 120 120 + 4 * (k : ℤ))
      = bitsABCD.getD (6 * k + j) '0' := by
  have he : extractSize 120 120 = 12 := by decide
  rw [he]
  have hX : 2 * ((120 : ℤ) / 2) - (12 : ℕ) + 4 * (j : ℤ) = 108 + 4 * j := by
    norm_num
  have hY : 2 * ((120 : ℤ) / 2) - (12 : ℕ) + 4 * (k : ℤ) = 108 + 4 * k := by
    norm_num
  have hgv : gVal ((54 + 2 * k) * 120 + (54 + 2 * j))
      = if bitsABCD.getD (6 * k + j) '0' = '1' then 0 else 255 := by
    rw [gVal,
      show ((54 + 2 * k) * 120 + (54 + 2 * j)) / 120 = 54 + 2 * k by omega,
      show ((54 + 2 * k) * 120 + (54 + 2 * j)) % 120 = 54 + 2 * j by omega,
      if_pos ⟨by omega, by omega, by omega, by omega, by omega, by omega⟩,
      show 6 * ((54 + 2 * k - 54) / 2) + (54 + 2 * j - 54) / 2 = 6 * k + j by omega]
  have hlen : gABCD.length = 14400 := by
    rw [gABCD]
    simp
  rw [hX, hY, walkCharVal, hlen, if_pos ⟨by omega, by omega, by omega⟩,
    show (((108 + 4 * (k : ℤ)) * ((120 : ℕ) : ℤ) + (108 + 4 * (j : ℤ))) / 2).toNat
      = (54 + 2 * k) * 120 + (54 + 2 * j) by push_cast; omega,
    gABCD, getD_range_map _ _ _ (by omega), hgv]
  rcases bitsABCD_getD (6 * k + j) with hb | hb <;> rw [hb] <;> decide

/-- The walk of the `gABCD` witness reads off the whole bit pattern. -/
theorem walkBits_gABCD : walkBits gABCD 120 120 128 = bitsABCD := by
  rw [walkBits_eq_map]
  have h6 : (extractSize 120 120 + 1) / 2 = 6 := by decide
  rw [h6, List.flatMap_def]
  rw [List.map_congr_left (g := fun k : ℕ =>
      (List.range 6).map fun j : ℕ => bitsABCD.getD (6 * k + j) '0') ?_]
  · decide
  · intro k hk
    exact List.map_congr_left fun j hj =>
      walkCharVal_gABCD j k (List.mem_range.mp hj) (List.mem_range.mp hk)

/-! ### Witnesses -/

/-- Witness for C1: the 28×22 test image yields 3 candidates and the core
produces a result. -/
theorem claim_absent_iff_few_candidates_witness :
    ∃ s : String, jsQR data28 28 22 123456 = some s :=
  (claim_absent_iff_few_candidates data28 28 22 123456).2
    (by rw [toGrayscale_data28]; decide)

/-- Witness for C3: the perfect silhouette in `g8` is classified as a
finder pattern. -/
theorem claim_window_classification_witness :
    isFinderPattern g8 0 0 8 8 128 = true :=
  (claim_window_classification g8 0 0 8 8 128 (by decide) (by decide)).mpr
    ⟨by decide, by decide⟩

/-- Witness for C5: an empty buffer yields an empty candidate string, so
the fallback fires and ends in the 6 digits of the clock. -/
theorem claim_extractor_fallback_witness :
    (extractData [] 0 0 128 [(0, 0), (0, 0), (0, 0)] 123456
        = some ("QR_" ++ String.intercalate "_"
            ((([(0, 0), (0, 0), (0, 0)] : List (ℕ × ℕ)).take 3).map fun p =>
              String.mk (decChars p.1) ++ "-" ++ String.mk (decChars p.2))
          ++ "_" ++ String.mk (lastSix (decChars 123456))))
      ∧ (lastSix (decChars 123456)).length = 6
      ∧ ∀ c ∈ lastSix (decChars 123456), c.isDigit = true :=
  claim_extractor_fallback [] 0 0 128 [(0, 0), (0, 0), (0, 0)] 123456
    (by decide) (by decide) (by decide)

/-- Witness for C6: the 120×120 buffer `gABCD` decodes to the candidate
string "ABCD", which the extractor returns verbatim. -/
theorem claim_extractor_returns_candidate_witness :
    extractData gABCD 120 120 128 [(0, 0), (3, 0), (6, 0)] 7
      = some (String.mk (chunksToResult (walkBits gABCD 120 120 128))) :=
  claim_extractor_returns_candidate gABCD 120 120 128 [(0, 0), (3, 0), (6, 0)] 7
    (by decide) (by rw [walkBits_gABCD]; decide) (by rw [walkBits_gABCD]; decide)

/-- Witness for C7: a single pixel (10, 20, 30, 99) converts to the double
round of 18.15, which away from the tie equals round(18.15) = 18, and
changing the alpha byte leaves the output untouched. -/
theorem claim_grayscale_spec_witness :
    (toGrayscale [10, 20, 30, 99] 1 1).length = 1
      ∧ (299 * ([10, 20, 30, 99] : List ℕ).getD (4 * 0) 0
            + 587 * ([10, 20, 30, 99] : List ℕ).getD (4 * 0 + 1) 0
            + 114 * ([10, 20, 30, 99] : List ℕ).getD (4 * 0 + 2) 0) % 1000 ≠ 500
      ∧ ((toGrayscale [10, 20, 30, 99] 1 1).getD 0 0 : ℤ)
          = round ((299 * (([10, 20, 30, 99] : List ℕ).getD (4 * 0) 0 : ℚ)
              + 587 * (([10, 20, 30, 99] : List ℕ).getD (4 * 0 + 1) 0 : ℚ)
              + 114 * (([10, 20, 30, 99] : List ℕ).getD (4 * 0 + 2) 0 : ℚ)) / 1000)
      ∧ toGrayscale [10, 20, 30, 0] 1 1 = toGrayscale [10, 20, 30, 99] 1 1 := by
  obtain ⟨h1, h2, h3⟩ :=
    claim_grayscale_spec [10, 20, 30, 99] 1 1 (by decide) (by decide) (by decide) (by decide)
  refine ⟨h1, by decide, (h2 0 (by decide)).2.1 (by decide),
    h3 [10, 20, 30, 0] (by decide) ?_⟩
  intro j hj
  rcases j with _ | _ | _ | _ | n
  · rfl
  · rfl
  · rfl
  · exact absurd rfl hj
  · rfl

/-- Counterexample to the spec's unconditional exact-round description of
the converter (C7): for the single pixel (0, 36, 12, 0) the exact quotient
is 22.5, whose round is 23, but the program's double arithmetic yields
22.499999999999996 and `Math.round` returns 22. -/
theorem claim_grayscale_spec_counterexample :
    ¬ (((toGrayscale [0, 36, 12, 0] 1 1).getD 0 0 : ℤ)
        = round ((299 * (([0, 36, 12, 0] : List ℕ).getD (4 * 0) 0 : ℚ)
            + 587 * (([0, 36, 12, 0] : List ℕ).getD (4 * 0 + 1) 0 : ℚ)
            + 114 * (([0, 36, 12, 0] : List ℕ).getD (4 * 0 + 2) 0 : ℚ)) / 1000)) := by
  with_unfolding_all decide

/-- Witness for C8: the detected fallback identifier of the 28×22 test
image is nonempty and starts with "QR_". -/
theorem claim_result_shape_witness :
    ("QR_0-0_3-0_6-0_123456" : String) ≠ ""
      ∧ ((4 ≤ ("QR_0-0_3-0_6-0_123456" : String).length
          ∧ ("QR_0-0_3-0_6-0_123456" : String).length ≤ 20
          ∧ ("QR_0-0_3-0_6-0_123456" : String).data.all charOK = true)
        ∨ ∃ s : String, ("QR_0-0_3-0_6-0_123456" : String) = "QR_" ++ s) :=
  claim_result_shape data28 28 22 123456 "QR_0-0_3-0_6-0_123456"
    (by rw [jsQR, toGrayscale_data28]; decide)

/-- Witness for C9: the candidate (0, 0) of `g22` is within bounds, and a
window at x = 25 (which would overrun width 28) is rejected. -/
theorem claim_candidate_bounds_witness :
    (((0, 0) : ℕ × ℕ).1 ≤ 28 - 8 ∧ ((0, 0) : ℕ × ℕ).2 ≤ 22 - 8)
      ∧ isFinderPattern g22 25 0 28 22 128 = false :=
  ⟨(claim_candidate_bounds g22 28 22 128).1 (0, 0) (by decide),
    (claim_candidate_bounds g22 28 22 128).2 25 0 (by decide)⟩

/-- Witness for C10: the first grid position of a 28×22 scan passes the
bounds guard and is classified. -/
theorem claim_grid_guard_unreachable_witness :
    ¬(28 ≤ 3 * 0 + 7 ∨ 22 ≤ 3 * 0 + 7)
      ∧ isFinderPattern g22 (3 * 0) (3 * 0) 28 22 128
          = windowMatch g22 (3 * 0) (3 * 0) 28 128 :=
  claim_grid_guard_unreachable g22 28 22 128 0 0 (by decide) (by decide)

end CameraRoom
